import Mathlib

/-!
Verification of the MEDnetwork simulation (src/MEDnetwork_Sim.py) against its
natural-language specification.

The repository's own source contains the scenario processes (customer,
clinic_control, delivery_truck, customer_generator) and the configuration
constants; the discrete-event engine they run on (Environment, Resource,
Container of the simpy library) is not part of the repository's sources, so
the engine's data structures and operations are modelled here from the
specification's component design (its sections 4.1 and 4.3), while the
scenario logic (the dispatch condition, the restock computation, the
per-clinic control loop structure) is translated from the source file.

Levels and amounts are integers (the scenario only ever draws integer
amounts); virtual time in the scheduler model is a natural number.
-/

namespace MEDSim

/-- Modelled from the spec: the engine's LevelContainer (design section 4.3),
whose implementation (the simpy library's Container) is not among the
repository's sources. Fields: fixed capacity, current level, and the FIFO
queue of pending get requests, each a (process id, requested amount) pair. -/
structure LevelContainer where
  capacity : ℤ
  level : ℤ
  get_wait_queue : List (ℕ × ℤ)
deriving DecidableEq

/-- Modelled from the spec: the invalid-request fault of section 7 (a get or
put called with an out-of-range amount). -/
inductive ContainerError where
  | invalidRequest
deriving DecidableEq

/-- Outcome of a get call that did not fault: the amount was deducted at once,
or the caller was appended to the wait queue and suspended. -/
inductive GetOutcome where
  | immediate
  | suspended
deriving DecidableEq

/-- Modelled from the spec: get(amount) of design section 4.3. The amount must
be positive and at most the capacity (else invalid-request); if the level
covers the amount the deduction is immediate, otherwise the requesting
process is appended to the get wait queue and suspended. -/
def LevelContainer.get (c : LevelContainer) (pid : ℕ) (amount : ℤ) :
    Except ContainerError (GetOutcome × LevelContainer) :=
  if amount ≤ 0 ∨ c.capacity < amount then
    Except.error ContainerError.invalidRequest
  else if amount ≤ c.level then
    Except.ok (GetOutcome.immediate, { c with level := c.level - amount })
  else
    Except.ok (GetOutcome.suspended,
      { c with get_wait_queue := c.get_wait_queue ++ [(pid, amount)] })

/-- Modelled from the spec: the wait-queue scan performed at the end of put
(design section 4.3). Starting from the freshly raised level, requests are
examined from the head of the queue in arrival order; each request whose
amount is at most the current level is dequeued and its amount deducted, and
the scan stops at the first request that cannot be satisfied. Returns the
final level, the remaining queue, and the process ids served, in order. -/
def drainQueue : ℤ → List (ℕ × ℤ) → ℤ × List (ℕ × ℤ) × List ℕ
  | lvl, [] => (lvl, [], [])
  | lvl, (p, a) :: rest =>
    if a ≤ lvl then
      ((drainQueue (lvl - a) rest).1, (drainQueue (lvl - a) rest).2.1,
        p :: (drainQueue (lvl - a) rest).2.2)
    else
      (lvl, (p, a) :: rest, [])

/-- Modelled from the spec: put(amount) of design section 4.3. The amount must
be positive (else invalid-request); the level is raised to
min(capacity, level + amount) — put never suspends the caller and silently
caps at capacity — and the wait queue is then drained from the head. The
served process ids are returned so the scheduler can resume them at the
current virtual time. -/
def LevelContainer.put (c : LevelContainer) (amount : ℤ) :
    Except ContainerError (LevelContainer × List ℕ) :=
  if amount ≤ 0 then
    Except.error ContainerError.invalidRequest
  else
    let r := drainQueue (min c.capacity (c.level + amount)) c.get_wait_queue
    Except.ok ({ c with level := r.1, get_wait_queue := r.2.1 }, r.2.2)

/-- Capacity of every clinic container, from the source:
clinic_med_supply = 100 medication units (line 26), used as both capacity and
initial level of the five containers (lines 106-124). -/
def clinic_med_supply : ℤ := 100

/-- Restock threshold from the source: THRESHOLD = 10 (line 27). -/
def THRESHOLD : ℤ := 10

/-- Dispatch condition of clinic_control, from the source (line 64):
medication.level < THRESHOLD or medication.level == 0. -/
def shouldDispatch (level : ℤ) : Bool :=
  decide (level < THRESHOLD) || decide (level = 0)

/-- Restock performed by delivery_truck on arrival, from the source
(lines 85-87): amount = capacity - level, then put(amount). -/
def deliveryTruckRestock (c : LevelContainer) :
    Except ContainerError (LevelContainer × List ℕ) :=
  c.put (c.capacity - c.level)

/-- Well-formedness of a container: the level lies between 0 and the capacity,
and every queued get request carries a positive amount of at most the
capacity (which get's validation guarantees on entry to the queue). -/
def containerInv (c : LevelContainer) : Prop :=
  0 ≤ c.level ∧ c.level ≤ c.capacity ∧
    ∀ pa ∈ c.get_wait_queue, 0 < pa.2 ∧ pa.2 ≤ c.capacity

/-- Program counter of the clinic_control loop, from the source (lines 63-70):
the loop is either about to test the level, blocked on the delivery truck it
spawned (yield env.process(delivery_truck ...)), or sitting in its fixed
500-second inspection timeout. -/
inductive CtrlPC where
  | checking
  | awaitingTruck
  | waiting
deriving DecidableEq

/-- State of one clinic's subsystem: its container, the program counter of its
single clinic_control process, and the number of delivery_truck processes
currently en route to this container. Each of the five clinics owns its own
container and its own clinic_control process (source lines 106-124), and only
that clinic's trucks ever put into it, so the clinics are independent for the
container-level claims and one clinic is modelled. -/
structure ClinicState where
  container : LevelContainer
  pc : CtrlPC
  trucks : ℕ
deriving DecidableEq

/-- Initial state from the source (lines 106-124): each container starts full
(init=clinic_med_supply), the control loop starts at its level test, and no
truck is en route. -/
def clinicInit : ClinicState :=
  { container :=
      { capacity := clinic_med_supply, level := clinic_med_supply,
        get_wait_queue := [] },
    pc := CtrlPC.checking, trucks := 0 }

/-- Transitions of one clinic's subsystem, from the source. Customers only
ever call get on the container (line 52); the control loop dispatches and then
synchronously awaits a truck exactly when the dispatch condition holds
(lines 64-70); an awaited truck performs its restock put on arrival
(lines 85-87), after which the control loop proceeds to its 500-second
timeout; the timeout elapsing returns the loop to the level test. -/
inductive ClinicStep : ClinicState → ClinicState → Prop where
  | customerGet (s : ClinicState) (pid : ℕ) (amount : ℤ) (out : GetOutcome)
      (c' : LevelContainer) :
      s.container.get pid amount = Except.ok (out, c') →
      ClinicStep s { s with container := c' }
  | checkDispatch (s : ClinicState) :
      s.pc = CtrlPC.checking → shouldDispatch s.container.level = true →
      ClinicStep s { s with pc := CtrlPC.awaitingTruck, trucks := s.trucks + 1 }
  | checkNoDispatch (s : ClinicState) :
      s.pc = CtrlPC.checking → shouldDispatch s.container.level = false →
      ClinicStep s { s with pc := CtrlPC.waiting }
  | truckArrive (s : ClinicState) (c' : LevelContainer) (served : List ℕ) :
      s.pc = CtrlPC.awaitingTruck →
      deliveryTruckRestock s.container = Except.ok (c', served) →
      ClinicStep s { container := c', pc := CtrlPC.waiting, trucks := s.trucks - 1 }
  | waitElapsed (s : ClinicState) :
      s.pc = CtrlPC.waiting →
      ClinicStep s { s with pc := CtrlPC.checking }

/-- States of one clinic's subsystem reachable from the initial state. -/
inductive ClinicReachable : ClinicState → Prop where
  | init : ClinicReachable clinicInit
  | step {s s' : ClinicState} : ClinicReachable s → ClinicStep s s' →
      ClinicReachable s'

/-- Inductive invariant of the clinic subsystem: the container is well formed
with the configured capacity, the level is strictly below capacity whenever a
truck has been dispatched and is being awaited, and the number of trucks en
route is 1 exactly while the control loop awaits one and 0 otherwise. -/
def clinicInv (s : ClinicState) : Prop :=
  s.container.capacity = clinic_med_supply ∧
  containerInv s.container ∧
  (s.pc = CtrlPC.awaitingTruck → s.container.level < s.container.capacity) ∧
  s.trucks = (if s.pc = CtrlPC.awaitingTruck then 1 else 0)

/-- Modelled from the spec: a pending wake-up in the scheduler's event queue
(design sections 3 and 4.1): due virtual time, tie-break ordinal (insertion
sequence number), and the process to resume. -/
structure SEvent where
  due : ℕ
  ord : ℕ
  pid : ℕ
deriving DecidableEq

/-- Scheduling priority: earlier due time first, with the ordinal breaking
ties among equal due times (stable FIFO). -/
def SEvent.before (a b : SEvent) : Prop :=
  a.due < b.due ∨ (a.due = b.due ∧ a.ord ≤ b.ord)

instance (a b : SEvent) : Decidable (a.before b) :=
  inferInstanceAs (Decidable (_ ∨ _))

/-- Earliest pending event of the queue under the (due, ordinal) priority. -/
def selectMin : List SEvent → Option SEvent
  | [] => none
  | e :: rest =>
    match selectMin rest with
    | none => some e
    | some m => if e.before m then some e else some m

/-- Modelled from the spec: the batch of follow-up events a resumed process
schedules before suspending again, inserted with consecutive fresh ordinals.
Every delay entry d stands for a wait of exactly d time units, delay 0
included: schedule accepts any delay ≥ 0 (design section 4.1), spawn starts
a process at the current time (section 4.1, the source's env.process at
lines 68 and 94), and release/put schedule wake-ups of waiters at the
current virtual time (sections 4.2, 4.3, 5 and 8). -/
def spawnEvents (t ord0 : ℕ) : List (ℕ × ℕ) → List SEvent
  | [] => []
  | (d, p) :: rest =>
    { due := t + d, ord := ord0, pid := p } :: spawnEvents t (ord0 + 1) rest

/-- Modelled from the spec: the scheduler of design section 4.1. State: the
clock, the next fresh ordinal, the pending event queue, and the trace of
resumptions performed so far, in order (the observable output ordering). -/
structure SchedState where
  now : ℕ
  nextOrd : ℕ
  queue : List SEvent
  trace : List SEvent
deriving DecidableEq

/-- A process behaviour: given the resumed process id and the current time,
the (delay, process id) events it schedules before suspending again. A fixed
behaviour plays the role of a fixed random-number sequence plus
configuration for the scheduler-level claims. -/
abbrev Handler : Type := ℕ → ℕ → List (ℕ × ℕ)

/-- Modelled from the spec: one iteration of run(until=T) (design section
4.1): pop the minimum-priority event; if its due time is within the horizon,
advance the clock to it, resume the process (appending whatever events it
schedules) and record the resumption in the trace; otherwise the run is over
and none is returned, leaving any still-pending events in the queue. -/
def schedStep (h : Handler) (T : ℕ) (s : SchedState) : Option SchedState :=
  match selectMin s.queue with
  | none => none
  | some e =>
    if e.due ≤ T then
      some { now := e.due,
             nextOrd := s.nextOrd + (h e.pid e.due).length,
             queue := s.queue.erase e ++ spawnEvents e.due s.nextOrd (h e.pid e.due),
             trace := s.trace ++ [e] }
    else none

/-- Modelled from the spec: run(until=T), driven by an explicit iteration
budget; the horizon theorem shows a budget computed from the initial queue
always suffices, which is the finite-steps guarantee. -/
def runSched (h : Handler) (T : ℕ) : ℕ → SchedState → SchedState
  | 0, s => s
  | fuel + 1, s =>
    match schedStep h T s with
    | none => s
    | some s' => runSched h T fuel s'

/-- Weight of a pending event in the termination measure, for horizon T,
per-resumption fan-out bound L, and a rank function rho (bounded by R) that
strictly decreases along zero-delay scheduling: the exponent drops by at
least one from any event to each event it schedules — through the time
component when the delay is positive, through the rank component when the
delay is zero. Events beyond the horizon cost nothing. -/
def evtWeight (L R T : ℕ) (rho : ℕ → ℕ → ℕ) (e : SEvent) : ℕ :=
  if e.due ≤ T then (L + 1) ^ ((T + 1 - e.due) * (R + 1) + rho e.pid e.due) else 0

/-- Termination measure of an event queue. -/
def schedMeasure (L R T : ℕ) (rho : ℕ → ℕ → ℕ) (q : List SEvent) : ℕ :=
  (q.map (evtWeight L R T rho)).sum

/-- Modelled from the spec: the run loop, stated as a relation: some pending
event within the horizon is minimal under the (due, ordinal) priority and the
state advances exactly as in schedStep. The relational reading lets the
stable-FIFO tie-break be shown to make execution deterministic rather than
assuming it. -/
def RStep (h : Handler) (T : ℕ) (s s' : SchedState) : Prop :=
  ∃ e, e ∈ s.queue ∧ (∀ x ∈ s.queue, e.before x) ∧ e.due ≤ T ∧
    s' = { now := e.due,
           nextOrd := s.nextOrd + (h e.pid e.due).length,
           queue := s.queue.erase e ++ spawnEvents e.due s.nextOrd (h e.pid e.due),
           trace := s.trace ++ [e] }

/-- Execution of exactly n iterations of the run loop. -/
inductive RSteps (h : Handler) (T : ℕ) : ℕ → SchedState → SchedState → Prop where
  | refl (s : SchedState) : RSteps h T 0 s s
  | tail {n : ℕ} {s s' s'' : SchedState} :
      RSteps h T n s s' → RStep h T s' s'' → RSteps h T (n + 1) s s''

/-- Scheduler well-formedness: queued events carry pairwise distinct
ordinals, all below the fresh-ordinal counter. -/
def SchedWF (s : SchedState) : Prop :=
  (∀ e ∈ s.queue, e.ord < s.nextOrd) ∧ (s.queue.map SEvent.ord).Nodup

/-- Anatomy of a successful get: the amount was validated, the capacity is
unchanged, and the result is either the immediate deduction or the enqueued
suspension. -/
theorem get_ok_cases {c : LevelContainer} {pid : ℕ} {amount : ℤ}
    {out : GetOutcome} {c' : LevelContainer}
    (h : c.get pid amount = Except.ok (out, c')) :
    0 < amount ∧ amount ≤ c.capacity ∧
      ((amount ≤ c.level ∧ out = GetOutcome.immediate ∧
          c' = { c with level := c.level - amount }) ∨
        (c.level < amount ∧ out = GetOutcome.suspended ∧
          c' = { c with get_wait_queue := c.get_wait_queue ++ [(pid, amount)] })) := by
  unfold LevelContainer.get at h
  split at h
  · exact absurd h (by simp)
  · rename_i hrange
    push_neg at hrange
    split at h
    · rename_i hlev
      simp only [Except.ok.injEq, Prod.mk.injEq] at h
      exact ⟨hrange.1, hrange.2, Or.inl ⟨hlev, h.1.symm, h.2.symm⟩⟩
    · rename_i hlev
      push_neg at hlev
      simp only [Except.ok.injEq, Prod.mk.injEq] at h
      exact ⟨hrange.1, hrange.2, Or.inr ⟨hlev, h.1.symm, h.2.symm⟩⟩

/-- A successful get preserves the container invariant, never changes the
capacity, and never raises the level. -/
theorem get_preserves_inv {c : LevelContainer} {pid : ℕ} {amount : ℤ}
    {out : GetOutcome} {c' : LevelContainer}
    (hc : containerInv c) (h : c.get pid amount = Except.ok (out, c')) :
    containerInv c' ∧ c'.capacity = c.capacity ∧ c'.level ≤ c.level := by
  obtain ⟨hpos, hcap, hcase⟩ := get_ok_cases h
  obtain ⟨hl0, hlc, hq⟩ := hc
  rcases hcase with ⟨hlev, -, rfl⟩ | ⟨hlev, -, rfl⟩
  · refine ⟨⟨show 0 ≤ c.level - amount by omega,
      show c.level - amount ≤ c.capacity by omega, ?_⟩, rfl,
      show c.level - amount ≤ c.level by omega⟩
    intro pa hpa
    exact hq pa hpa
  · refine ⟨⟨hl0, hlc, ?_⟩, rfl, le_refl _⟩
    intro pa hpa
    rcases List.mem_append.1 hpa with hmem | hmem
    · exact hq pa hmem
    · rcases List.mem_singleton.1 hmem with rfl
      exact ⟨hpos, hcap⟩

/-- The wait-queue scan decomposes the queue into the served prefix and the
untouched remainder: the served ids are exactly the ids of that prefix in
order, the final level is the starting level minus the amounts served, and
the scan stopped because the head of the remainder (when any) exceeds the
final level. -/
theorem drainQueue_spec (lvl : ℤ) (q : List (ℕ × ℤ)) :
    ∃ pre, q = pre ++ (drainQueue lvl q).2.1 ∧
      (drainQueue lvl q).2.2 = pre.map Prod.fst ∧
      (drainQueue lvl q).1 = lvl - (pre.map Prod.snd).sum ∧
      ∀ p a tl, (drainQueue lvl q).2.1 = (p, a) :: tl → (drainQueue lvl q).1 < a := by
  induction q generalizing lvl with
  | nil =>
    exact ⟨[], by simp [drainQueue]⟩
  | cons hd rest ih =>
    obtain ⟨p, a⟩ := hd
    by_cases hle : a ≤ lvl
    · obtain ⟨pre, hq, hserved, hlvl, hstop⟩ := ih (lvl - a)
      refine ⟨(p, a) :: pre, ?_, ?_, ?_, ?_⟩ <;>
        simp only [drainQueue, if_pos hle, List.map_cons, List.sum_cons]
      · simpa using hq
      · simpa using hserved
      · omega
      · exact hstop
    · refine ⟨[], by simp [drainQueue, hle], by simp [drainQueue, hle],
        by simp [drainQueue, hle], ?_⟩
      intro p' a' tl htl
      simp only [drainQueue, if_neg hle] at htl ⊢
      obtain ⟨h1, -⟩ := List.cons_eq_cons.1 htl
      obtain ⟨-, rfl⟩ := Prod.mk.injEq .. ▸ h1
      omega

/-- The scan never drives the level negative. -/
theorem drainQueue_nonneg (lvl : ℤ) (q : List (ℕ × ℤ)) (h : 0 ≤ lvl) :
    0 ≤ (drainQueue lvl q).1 := by
  induction q generalizing lvl with
  | nil => simpa [drainQueue] using h
  | cons hd rest ih =>
    obtain ⟨p, a⟩ := hd
    by_cases hle : a ≤ lvl
    · simpa [drainQueue, if_pos hle] using ih (lvl - a) (by omega)
    · simpa [drainQueue, if_neg hle] using h

/-- When the queued amounts are nonnegative, the scan never raises the level. -/
theorem drainQueue_le (lvl : ℤ) (q : List (ℕ × ℤ))
    (h : ∀ pa ∈ q, 0 ≤ pa.2) : (drainQueue lvl q).1 ≤ lvl := by
  induction q generalizing lvl with
  | nil => simp [drainQueue]
  | cons hd rest ih =>
    obtain ⟨p, a⟩ := hd
    by_cases hle : a ≤ lvl
    · have ha : 0 ≤ a := h (p, a) (by simp)
      have := ih (lvl - a) (fun pa hpa => h pa (by simp [hpa]))
      simp only [drainQueue, if_pos hle]
      omega
    · simp [drainQueue, if_neg hle]

/-- A positive-amount put always succeeds. -/
theorem put_ok_of_pos {c : LevelContainer} {amount : ℤ} (h : 0 < amount) :
    ∃ c' served, c.put amount = Except.ok (c', served) := by
  unfold LevelContainer.put
  rw [if_neg (show ¬amount ≤ 0 by omega)]
  exact ⟨_, _, rfl⟩

/-- Anatomy of a successful put: the amount was positive, and the result is
the raised-then-drained container together with the served ids. -/
theorem put_ok_cases {c : LevelContainer} {amount : ℤ}
    {c' : LevelContainer} {served : List ℕ}
    (h : c.put amount = Except.ok (c', served)) :
    0 < amount ∧
      c' = { c with
        level := (drainQueue (min c.capacity (c.level + amount)) c.get_wait_queue).1,
        get_wait_queue :=
          (drainQueue (min c.capacity (c.level + amount)) c.get_wait_queue).2.1 } ∧
      served = (drainQueue (min c.capacity (c.level + amount)) c.get_wait_queue).2.2 := by
  unfold LevelContainer.put at h
  split at h
  · exact absurd h (by simp)
  · rename_i hpos
    simp only [Except.ok.injEq, Prod.mk.injEq] at h
    exact ⟨by omega, h.1.symm, h.2.symm⟩

/-- A successful put preserves the container invariant and the capacity. -/
theorem put_preserves_inv {c : LevelContainer} {amount : ℤ}
    {c' : LevelContainer} {served : List ℕ}
    (hc : containerInv c) (h : c.put amount = Except.ok (c', served)) :
    containerInv c' ∧ c'.capacity = c.capacity := by
  obtain ⟨hpos, rfl, -⟩ := put_ok_cases h
  obtain ⟨hl0, hlc, hq⟩ := hc
  have hcap0 : (0 : ℤ) ≤ c.capacity := le_trans hl0 hlc
  have hraised0 : 0 ≤ min c.capacity (c.level + amount) := by
    rcases min_choice c.capacity (c.level + amount) with hmin | hmin <;> omega
  have hraisedc : min c.capacity (c.level + amount) ≤ c.capacity := min_le_left _ _
  refine ⟨⟨drainQueue_nonneg _ _ hraised0, ?_, ?_⟩, rfl⟩
  · have := drainQueue_le (min c.capacity (c.level + amount)) c.get_wait_queue
      (fun pa hpa => le_of_lt (hq pa hpa).1)
    exact le_trans this hraisedc
  · intro pa hpa
    obtain ⟨pre, hdec, -, -, -⟩ :=
      drainQueue_spec (min c.capacity (c.level + amount)) c.get_wait_queue
    exact hq pa (hdec ▸ List.mem_append_right pre hpa)

/-- The clinic invariant holds in every reachable state. -/
theorem clinicInv_of_reachable {s : ClinicState} (h : ClinicReachable s) :
    clinicInv s := by
  induction h with
  | init =>
    refine ⟨rfl, ⟨?_, ?_, ?_⟩, ?_, ?_⟩ <;>
      simp [clinicInit, clinic_med_supply]
  | step hr hstep ih =>
    obtain ⟨hcap, hcinv, hawait, htr⟩ := ih
    cases hstep with
    | customerGet pid amount out c' hget =>
      rename_i s
      obtain ⟨hinv', hcap', hle'⟩ := get_preserves_inv hcinv hget
      refine ⟨?_, hinv', fun hpc => ?_, htr⟩
      · show c'.capacity = clinic_med_supply
        rw [hcap', hcap]
      · show c'.level < c'.capacity
        have h1 := hawait hpc
        omega
    | checkDispatch hpc hcond =>
      rename_i s
      have hlt : s.container.level < THRESHOLD ∨ s.container.level = 0 := by
        simpa [shouldDispatch] using hcond
      have hT : THRESHOLD = (10 : ℤ) := rfl
      have hS : clinic_med_supply = (100 : ℤ) := rfl
      refine ⟨hcap, hcinv, fun _ => ?_, by simp [htr, hpc]⟩
      show s.container.level < s.container.capacity
      omega
    | checkNoDispatch hpc hcond =>
      exact ⟨hcap, hcinv, by simp, by simp [htr, hpc]⟩
    | truckArrive c' served hpc hput =>
      rename_i s
      obtain ⟨hinv', hcap'⟩ := put_preserves_inv hcinv hput
      refine ⟨?_, hinv', by simp, by simp [htr, hpc]⟩
      show c'.capacity = clinic_med_supply
      have hcap'' : c'.capacity = s.container.capacity := hcap'
      rw [hcap'', hcap]
    | waitElapsed hpc =>
      refine ⟨hcap, hcinv, by simp, by simp [htr, hpc]⟩

theorem SEvent.before_refl (a : SEvent) : a.before a := Or.inr ⟨rfl, le_refl _⟩

theorem SEvent.before_trans {a b c : SEvent} (h1 : a.before b)
    (h2 : b.before c) : a.before c := by
  unfold SEvent.before at *
  omega

theorem SEvent.before_total (a b : SEvent) : a.before b ∨ b.before a := by
  unfold SEvent.before
  omega

theorem selectMin_eq_none {q : List SEvent} : selectMin q = none ↔ q = [] := by
  cases q with
  | nil => simp [selectMin]
  | cons e rest =>
    simp only [selectMin]
    cases h : selectMin rest with
    | none => simp
    | some m => by_cases hb : e.before m <;> simp [hb]

theorem selectMin_mem {q : List SEvent} {e : SEvent}
    (h : selectMin q = some e) : e ∈ q := by
  induction q generalizing e with
  | nil => simp [selectMin] at h
  | cons a rest ih =>
    simp only [selectMin] at h
    cases hm : selectMin rest with
    | none =>
      simp only [hm] at h
      injection h with h
      exact h ▸ List.mem_cons_self a rest
    | some m =>
      simp only [hm] at h
      by_cases hb : a.before m
      · rw [if_pos hb] at h
        injection h with h
        exact h ▸ List.mem_cons_self a rest
      · rw [if_neg hb] at h
        injection h with h
        exact List.mem_cons_of_mem a (h ▸ ih hm)

theorem selectMin_le {q : List SEvent} {e : SEvent}
    (h : selectMin q = some e) : ∀ x ∈ q, e.before x := by
  induction q generalizing e with
  | nil => simp [selectMin] at h
  | cons a rest ih =>
    simp only [selectMin] at h
    cases hm : selectMin rest with
    | none =>
      simp only [hm] at h
      injection h with h
      subst h
      have hr : rest = [] := selectMin_eq_none.1 hm
      subst hr
      intro x hx
      rcases List.mem_singleton.1 hx with rfl
      exact SEvent.before_refl _
    | some m =>
      simp only [hm] at h
      have hmle := ih hm
      by_cases hb : a.before m
      · rw [if_pos hb] at h
        injection h with h
        subst h
        intro x hx
        rcases List.mem_cons.1 hx with rfl | hx
        · exact SEvent.before_refl _
        · exact SEvent.before_trans hb (hmle x hx)
      · rw [if_neg hb] at h
        injection h with h
        subst h
        intro x hx
        rcases List.mem_cons.1 hx with rfl | hx
        · rcases SEvent.before_total x m with hab | hab
          · exact absurd hab hb
          · exact hab
        · exact hmle x hx

theorem spawnEvents_mem (t ord0 : ℕ) (l : List (ℕ × ℕ)) :
    ∀ e ∈ spawnEvents t ord0 l, ∃ dp ∈ l, e.due = t + dp.1 ∧ e.pid = dp.2 := by
  induction l generalizing ord0 with
  | nil => simp [spawnEvents]
  | cons hd rest ih =>
    obtain ⟨d, p⟩ := hd
    intro e he
    simp only [spawnEvents] at he
    rcases List.mem_cons.1 he with rfl | he
    · exact ⟨(d, p), by simp, rfl, rfl⟩
    · obtain ⟨dp, hdp, h1, h2⟩ := ih (ord0 + 1) e he
      exact ⟨dp, by simp [hdp], h1, h2⟩

theorem spawnEvents_length (t ord0 : ℕ) (l : List (ℕ × ℕ)) :
    (spawnEvents t ord0 l).length = l.length := by
  induction l generalizing ord0 with
  | nil => simp [spawnEvents]
  | cons hd rest ih =>
    obtain ⟨d, p⟩ := hd
    simp [spawnEvents, ih]

theorem spawnEvents_ord (t ord0 : ℕ) (l : List (ℕ × ℕ)) :
    ∀ e ∈ spawnEvents t ord0 l, ord0 ≤ e.ord ∧ e.ord < ord0 + l.length := by
  induction l generalizing ord0 with
  | nil => simp [spawnEvents]
  | cons hd rest ih =>
    obtain ⟨d, p⟩ := hd
    intro e he
    simp only [spawnEvents] at he
    rcases List.mem_cons.1 he with rfl | he
    · refine ⟨le_refl _, ?_⟩
      show ord0 < ord0 + (rest.length + 1)
      omega
    · have := ih (ord0 + 1) e he
      constructor <;> [omega; (show e.ord < ord0 + (rest.length + 1); omega)]

theorem spawnEvents_ords_nodup (t ord0 : ℕ) (l : List (ℕ × ℕ)) :
    ((spawnEvents t ord0 l).map SEvent.ord).Nodup := by
  induction l generalizing ord0 with
  | nil => simp [spawnEvents]
  | cons hd rest ih =>
    obtain ⟨d, p⟩ := hd
    simp only [spawnEvents, List.map_cons, List.nodup_cons]
    refine ⟨?_, ih (ord0 + 1)⟩
    intro hmem
    obtain ⟨e, he, hord⟩ := List.mem_map.1 hmem
    have := (spawnEvents_ord t (ord0 + 1) rest e he).1
    omega

theorem sum_map_le_length_mul {α : Type} (l : List α) (f : α → ℕ) (M : ℕ)
    (h : ∀ x ∈ l, f x ≤ M) : (l.map f).sum ≤ l.length * M := by
  induction l with
  | nil => simp
  | cons a rest ih =>
    simp only [List.map_cons, List.sum_cons, List.length_cons]
    have h1 := h a (by simp)
    have h2 := ih (fun x hx => h x (by simp [hx]))
    have h3 : (rest.length + 1) * M = rest.length * M + M := by ring
    omega

theorem schedMeasure_erase {q : List SEvent} {e : SEvent} (he : e ∈ q)
    (L R T : ℕ) (rho : ℕ → ℕ → ℕ) :
    schedMeasure L R T rho q =
      evtWeight L R T rho e + schedMeasure L R T rho (q.erase e) := by
  have hp : q.Perm (e :: q.erase e) := List.perm_cons_erase he
  have := (hp.map (evtWeight L R T rho)).sum_eq
  simpa [schedMeasure] using this

theorem schedMeasure_append (L R T : ℕ) (rho : ℕ → ℕ → ℕ)
    (q1 q2 : List SEvent) :
    schedMeasure L R T rho (q1 ++ q2) =
      schedMeasure L R T rho q1 + schedMeasure L R T rho q2 := by
  simp [schedMeasure]

theorem schedMeasure_spawn_le (L R T t ord0 rk : ℕ) (rho : ℕ → ℕ → ℕ)
    (l : List (ℕ × ℕ)) (hlen : l.length ≤ L) (ht : t ≤ T)
    (hrank : ∀ p u, rho p u ≤ R)
    (hz : ∀ dp ∈ l, 1 ≤ dp.1 ∨ (dp.1 = 0 ∧ rho dp.2 t < rk)) :
    schedMeasure L R T rho (spawnEvents t ord0 l) ≤
      L * (L + 1) ^ ((T + 1 - t) * (R + 1) + rk - 1) := by
  have hb : ∀ e ∈ spawnEvents t ord0 l,
      evtWeight L R T rho e ≤ (L + 1) ^ ((T + 1 - t) * (R + 1) + rk - 1) := by
    intro e he
    obtain ⟨dp, hdp, hdue, hpid⟩ := spawnEvents_mem t ord0 l e he
    unfold evtWeight
    split
    · rename_i hle
      apply Nat.pow_le_pow_right (by omega)
      rcases hz dp hdp with hd1 | ⟨hd0, hlt⟩
      · have h1 : T + 1 - e.due ≤ T - t := by omega
        have h2 : (T + 1 - e.due) * (R + 1) ≤ (T - t) * (R + 1) :=
          Nat.mul_le_mul_right _ h1
        have h3 : rho e.pid e.due ≤ R := hrank _ _
        have h4 : (T + 1 - t) * (R + 1) = (T - t) * (R + 1) + (R + 1) := by
          have h5 : T + 1 - t = (T - t) + 1 := by omega
          rw [h5]
          ring
        omega
      · have h5 : e.due = t := by omega
        have h6 : rho e.pid e.due < rk := by
          rw [h5, hpid]
          exact hlt
        rw [h5]
        rw [h5] at h6
        omega
    · positivity
  have h1 := sum_map_le_length_mul (spawnEvents t ord0 l)
    (evtWeight L R T rho) _ hb
  rw [spawnEvents_length] at h1
  calc schedMeasure L R T rho (spawnEvents t ord0 l)
      ≤ l.length * (L + 1) ^ ((T + 1 - t) * (R + 1) + rk - 1) := h1
    _ ≤ L * (L + 1) ^ ((T + 1 - t) * (R + 1) + rk - 1) :=
        Nat.mul_le_mul_right _ hlen

theorem schedStep_measure_lt {h : Handler} {L R T : ℕ} {rho : ℕ → ℕ → ℕ}
    {s s' : SchedState}
    (hlen : ∀ pid t, (h pid t).length ≤ L)
    (hrank : ∀ p u, rho p u ≤ R)
    (hz : ∀ pid t, ∀ dp ∈ h pid t, 1 ≤ dp.1 ∨ (dp.1 = 0 ∧ rho dp.2 t < rho pid t))
    (hstep : schedStep h T s = some s') :
    schedMeasure L R T rho s'.queue < schedMeasure L R T rho s.queue := by
  unfold schedStep at hstep
  cases hm : selectMin s.queue with
  | none => simp only [hm] at hstep; exact absurd hstep (by simp)
  | some e =>
    simp only [hm] at hstep
    by_cases hT : e.due ≤ T
    · rw [if_pos hT] at hstep
      injection hstep with hstep
      subst hstep
      have he : e ∈ s.queue := selectMin_mem hm
      have h1 := schedMeasure_erase he L R T rho
      show schedMeasure L R T rho
        (s.queue.erase e ++ spawnEvents e.due s.nextOrd (h e.pid e.due)) < _
      rw [schedMeasure_append, h1]
      have h2 := schedMeasure_spawn_le L R T e.due s.nextOrd (rho e.pid e.due)
        rho (h e.pid e.due) (hlen _ _) hT hrank (hz e.pid e.due)
      have h3 : L * (L + 1) ^ ((T + 1 - e.due) * (R + 1) + rho e.pid e.due - 1) <
          evtWeight L R T rho e := by
        unfold evtWeight
        rw [if_pos hT]
        have hk1 : 1 ≤ (T + 1 - e.due) * (R + 1) := by
          have h5 : 1 * 1 ≤ (T + 1 - e.due) * (R + 1) :=
            Nat.mul_le_mul (by omega) (by omega)
          omega
        obtain ⟨m, hm2⟩ : ∃ m,
            (T + 1 - e.due) * (R + 1) + rho e.pid e.due = m + 1 :=
          ⟨(T + 1 - e.due) * (R + 1) + rho e.pid e.due - 1, by omega⟩
        rw [hm2, pow_succ]
        have hp : 0 < (L + 1) ^ m := pow_pos (by omega) _
        have hm3 : m + 1 - 1 = m := by omega
        rw [hm3]
        nlinarith
      omega
    · rw [if_neg hT] at hstep; exact absurd hstep (by simp)

theorem runSched_halts {h : Handler} {L R T : ℕ} {rho : ℕ → ℕ → ℕ}
    (hlen : ∀ pid t, (h pid t).length ≤ L)
    (hrank : ∀ p u, rho p u ≤ R)
    (hz : ∀ pid t, ∀ dp ∈ h pid t, 1 ≤ dp.1 ∨ (dp.1 = 0 ∧ rho dp.2 t < rho pid t)) :
    ∀ fuel s, schedMeasure L R T rho s.queue ≤ fuel →
      schedStep h T (runSched h T fuel s) = none := by
  intro fuel
  induction fuel with
  | zero =>
    intro s hs
    cases hstep : schedStep h T s with
    | none => simpa [runSched] using hstep
    | some s' =>
      have := schedStep_measure_lt hlen hrank hz hstep
      omega
  | succ fuel ih =>
    intro s hs
    cases hstep : schedStep h T s with
    | none => simp [runSched, hstep]
    | some s' =>
      have hlt := schedStep_measure_lt hlen hrank hz hstep
      have hrw : runSched h T (fuel + 1) s = runSched h T fuel s' := by
        simp [runSched, hstep]
      rw [hrw]
      exact ih s' (by omega)

theorem runSched_trace_le {h : Handler} {T : ℕ} :
    ∀ fuel s, ∀ e ∈ (runSched h T fuel s).trace, e ∈ s.trace ∨ e.due ≤ T := by
  intro fuel
  induction fuel with
  | zero =>
    intro s e he
    exact Or.inl (by simpa [runSched] using he)
  | succ fuel ih =>
    intro s e he
    cases hstep : schedStep h T s with
    | none =>
      rw [show runSched h T (fuel + 1) s = s by simp [runSched, hstep]] at he
      exact Or.inl he
    | some s' =>
      rw [show runSched h T (fuel + 1) s = runSched h T fuel s' by
        simp [runSched, hstep]] at he
      rcases ih s' e he with hmem | hT
      · unfold schedStep at hstep
        cases hm : selectMin s.queue with
        | none => simp only [hm] at hstep; exact absurd hstep (by simp)
        | some e0 =>
          simp only [hm] at hstep
          by_cases hT0 : e0.due ≤ T
          · rw [if_pos hT0] at hstep
            injection hstep with hstep
            subst hstep
            rcases List.mem_append.1 hmem with h1 | h1
            · exact Or.inl h1
            · rcases List.mem_singleton.1 h1 with rfl
              exact Or.inr hT0
          · rw [if_neg hT0] at hstep; exact absurd hstep (by simp)
      · exact Or.inr hT

theorem schedStep_none_queue {h : Handler} {T : ℕ} {s : SchedState}
    (hnone : schedStep h T s = none) : ∀ e ∈ s.queue, T < e.due := by
  intro e he
  unfold schedStep at hnone
  cases hm : selectMin s.queue with
  | none =>
    rw [selectMin_eq_none.1 hm] at he
    simp at he
  | some m =>
    simp only [hm] at hnone
    by_cases hT : m.due ≤ T
    · rw [if_pos hT] at hnone
      exact absurd hnone (by simp)
    · have hb := selectMin_le hm e he
      unfold SEvent.before at hb
      omega

/-- With pairwise distinct ordinals there is at most one minimal event: the
(due, ordinal) priority is antisymmetric on the queue. -/
theorem minimal_unique {q : List SEvent} (hnd : (q.map SEvent.ord).Nodup)
    {e1 e2 : SEvent} (h1 : e1 ∈ q) (h2 : e2 ∈ q)
    (hm1 : ∀ x ∈ q, e1.before x) (hm2 : ∀ x ∈ q, e2.before x) : e1 = e2 := by
  have hb1 := hm1 e2 h2
  have hb2 := hm2 e1 h1
  have hord : e1.ord = e2.ord := by
    unfold SEvent.before at hb1 hb2
    omega
  exact List.inj_on_of_nodup_map hnd h1 h2 (by rw [hord])

/-- One iteration of the relational run loop is deterministic on well-formed
states. -/
theorem RStep_det {h : Handler} {T : ℕ} {s s1 s2 : SchedState}
    (hwf : SchedWF s) (h1 : RStep h T s s1) (h2 : RStep h T s s2) : s1 = s2 := by
  obtain ⟨e1, he1, hm1, hT1, rfl⟩ := h1
  obtain ⟨e2, he2, hm2, hT2, rfl⟩ := h2
  have he : e1 = e2 := minimal_unique hwf.2 he1 he2 hm1 hm2
  subst he
  rfl

/-- One iteration preserves scheduler well-formedness: surviving events keep
their ordinals, fresh events get fresh consecutive ordinals. -/
theorem RStep_wf {h : Handler} {T : ℕ} {s s' : SchedState}
    (hwf : SchedWF s) (hstep : RStep h T s s') : SchedWF s' := by
  obtain ⟨hbound, hnd⟩ := hwf
  obtain ⟨e, he, hmin, hT, rfl⟩ := hstep
  constructor
  · intro x hx
    show x.ord < s.nextOrd + (h e.pid e.due).length
    rcases List.mem_append.1 hx with hx | hx
    · have := hbound x (List.mem_of_mem_erase hx)
      omega
    · have := (spawnEvents_ord e.due s.nextOrd _ x hx).2
      omega
  · show (((s.queue.erase e ++
      spawnEvents e.due s.nextOrd (h e.pid e.due))).map SEvent.ord).Nodup
    rw [List.map_append]
    rw [List.nodup_append]
    refine ⟨?_, spawnEvents_ords_nodup _ _ _, ?_⟩
    · exact ((List.erase_sublist e s.queue).map SEvent.ord).nodup hnd
    · intro o ho1 ho2
      obtain ⟨x, hx, rfl⟩ := List.mem_map.1 ho1
      obtain ⟨y, hy, hxy⟩ := List.mem_map.1 ho2
      have hxb := hbound x (List.mem_of_mem_erase hx)
      have hyb := (spawnEvents_ord e.due s.nextOrd _ y hy).1
      omega

/-- Scheduler well-formedness is preserved along any execution. -/
theorem RSteps_wf {h : Handler} {T : ℕ} {n : ℕ} {s s' : SchedState}
    (hwf : SchedWF s) (hs : RSteps h T n s s') : SchedWF s' := by
  revert hwf
  induction hs with
  | refl s => exact fun hwf => hwf
  | tail hsteps hstep ih => exact fun hwf => RStep_wf (ih hwf) hstep

/-- n-iteration executions of the run loop from a well-formed state are
deterministic: the full final state, its trace included, is unique. -/
theorem RSteps_det {h : Handler} {T : ℕ} :
    ∀ (n : ℕ) (s s1 s2 : SchedState), SchedWF s →
      RSteps h T n s s1 → RSteps h T n s s2 → s1 = s2 := by
  intro n
  induction n with
  | zero =>
    intro s s1 s2 hwf h1 h2
    cases h1
    cases h2
    rfl
  | succ n ih =>
    intro s s1 s2 hwf h1 h2
    cases h1 with
    | tail h1s h1e =>
      rename_i mid1
      cases h2 with
      | tail h2s h2e =>
        rename_i mid2
        have hmid : mid1 = mid2 := ih s mid1 mid2 hwf h1s h2s
        subst hmid
        exact RStep_det (RSteps_wf hwf h1s) h1e h2e

/-- C1: for every reachable state of a clinic's LevelContainer the level
satisfies 0 ≤ level ≤ capacity, and the invariant is preserved by every
successful get and by every successful put (the five clinic containers are
identical instances of this per-clinic model). -/
theorem C1_container_level_invariant :
    (∀ (c : LevelContainer) (pid : ℕ) (amount : ℤ) (out : GetOutcome)
        (c' : LevelContainer), containerInv c →
        c.get pid amount = Except.ok (out, c') →
        0 ≤ c'.level ∧ c'.level ≤ c'.capacity) ∧
    (∀ (c : LevelContainer) (amount : ℤ) (c' : LevelContainer)
        (served : List ℕ), containerInv c →
        c.put amount = Except.ok (c', served) →
        0 ≤ c'.level ∧ c'.level ≤ c'.capacity) ∧
    (∀ s : ClinicState, ClinicReachable s →
        0 ≤ s.container.level ∧ s.container.level ≤ s.container.capacity) := by
  refine ⟨?_, ?_, ?_⟩
  · intro c pid amount out c' hc h
    obtain ⟨⟨h1, h2, -⟩, -, -⟩ := get_preserves_inv hc h
    exact ⟨h1, h2⟩
  · intro c amount c' served hc h
    obtain ⟨⟨h1, h2, -⟩, -⟩ := put_preserves_inv hc h
    exact ⟨h1, h2⟩
  · intro s hs
    obtain ⟨-, ⟨h1, h2, -⟩, -, -⟩ := clinicInv_of_reachable hs
    exact ⟨h1, h2⟩

/-- Witness for C1: a concrete get of 5 units from a full container of
capacity 100, and the initial reachable clinic state. -/
theorem C1_container_level_invariant_witness :
    (0 ≤ (⟨100, 95, []⟩ : LevelContainer).level ∧
        (⟨100, 95, []⟩ : LevelContainer).level ≤
          (⟨100, 95, []⟩ : LevelContainer).capacity) ∧
      (0 ≤ clinicInit.container.level ∧
        clinicInit.container.level ≤ clinicInit.container.capacity) :=
  ⟨C1_container_level_invariant.1 ⟨100, 100, []⟩ 7 5 GetOutcome.immediate
      ⟨100, 95, []⟩ ⟨by decide, by decide, by simp⟩ (by rfl),
    C1_container_level_invariant.2.2 clinicInit ClinicReachable.init⟩

/-- C2: put with a positive amount never suspends the caller — it always
returns successfully — and it sets the level to min(capacity, level + amount)
before serving waiters, so with an empty wait queue the resulting level is
exactly min(capacity, level + amount), the excess above capacity silently
discarded. -/
theorem C2_put_never_blocks_and_caps (c : LevelContainer) (amount : ℤ)
    (hpos : 0 < amount) :
    (∃ c' served, c.put amount = Except.ok (c', served)) ∧
    (∀ c' served, c.put amount = Except.ok (c', served) →
      c.get_wait_queue = [] →
      c'.level = min c.capacity (c.level + amount) ∧ served = []) := by
  refine ⟨put_ok_of_pos hpos, ?_⟩
  intro c' served h hq
  obtain ⟨-, rfl, rfl⟩ := put_ok_cases h
  rw [hq]
  exact ⟨rfl, rfl⟩

/-- Witness for C2: putting 5 units into a container at level 97 of capacity
100 succeeds and caps at 100. -/
theorem C2_put_never_blocks_and_caps_witness :
    (∃ c' served, (⟨100, 97, []⟩ : LevelContainer).put 5 =
      Except.ok (c', served)) ∧
    (∀ c' served, (⟨100, 97, []⟩ : LevelContainer).put 5 =
        Except.ok (c', served) →
      (⟨100, 97, []⟩ : LevelContainer).get_wait_queue = [] →
      c'.level = min (⟨100, 97, []⟩ : LevelContainer).capacity
        ((⟨100, 97, []⟩ : LevelContainer).level + 5) ∧ served = []) :=
  C2_put_never_blocks_and_caps ⟨100, 97, []⟩ 5 (by decide)

/-- C3: at a periodic check, clinic_control's dispatch condition holds exactly
when the level is below the threshold fraction (THRESHOLD percent) of the
configured capacity or the level is 0; a dispatch step of the control loop is
possible exactly when that condition holds; and in particular a level of 9
(capacity 100, threshold 10 percent) makes the condition true, so a truck is
dispatched and awaited before the next scheduled check. -/
theorem C3_dispatch_threshold :
    (∀ level : ℤ, shouldDispatch level = true ↔
      ((level : ℚ) < (THRESHOLD : ℚ) / 100 * (clinic_med_supply : ℚ) ∨
        level = 0)) ∧
    (∀ s : ClinicState, s.pc = CtrlPC.checking →
      (ClinicStep s { s with pc := CtrlPC.awaitingTruck, trucks := s.trucks + 1 }
        ↔ shouldDispatch s.container.level = true)) ∧
    shouldDispatch 9 = true := by
  refine ⟨?_, ?_, by decide⟩
  · intro level
    have h1 : (THRESHOLD : ℚ) / 100 * (clinic_med_supply : ℚ) = 10 := by
      norm_num [THRESHOLD, clinic_med_supply]
    rw [h1]
    simp only [shouldDispatch, THRESHOLD, Bool.or_eq_true, decide_eq_true_eq]
    constructor
    · rintro (h | h)
      · exact Or.inl (by exact_mod_cast h)
      · exact Or.inr h
    · rintro (h | h)
      · exact Or.inl (by exact_mod_cast h)
      · exact Or.inr h
  · intro s hpc
    constructor
    · intro hstep
      revert hstep
      generalize htgt :
        ({ s with pc := CtrlPC.awaitingTruck, trucks := s.trucks + 1 } : ClinicState) = t
      intro hstep
      cases hstep with
      | customerGet pid amount out c' hget =>
        have h2 := congrArg ClinicState.trucks htgt
        simp at h2
      | checkDispatch hpc2 hcond => exact hcond
      | checkNoDispatch hpc2 hcond =>
        have h2 := congrArg ClinicState.pc htgt
        simp at h2
      | truckArrive c' served hpc2 hput =>
        have h2 := congrArg ClinicState.pc htgt
        simp at h2
      | waitElapsed hpc2 =>
        have h2 := congrArg ClinicState.pc htgt
        simp at h2
    · intro hcond
      exact ClinicStep.checkDispatch s hpc hcond

/-- Witness for C3: the threshold equivalence at level 9, and the dispatch
step possible at a checking state with level 9. -/
theorem C3_dispatch_threshold_witness :
    (shouldDispatch 9 = true ↔
      (((9 : ℤ) : ℚ) < (THRESHOLD : ℚ) / 100 * (clinic_med_supply : ℚ) ∨
        (9 : ℤ) = 0)) ∧
    (ClinicStep ⟨⟨100, 9, []⟩, CtrlPC.checking, 0⟩
        ⟨⟨100, 9, []⟩, CtrlPC.awaitingTruck, 1⟩ ↔
      shouldDispatch (⟨⟨100, 9, []⟩, CtrlPC.checking, 0⟩ :
        ClinicState).container.level = true) :=
  ⟨C3_dispatch_threshold.1 9,
    C3_dispatch_threshold.2.1 ⟨⟨100, 9, []⟩, CtrlPC.checking, 0⟩ rfl⟩

/-- C4: put serves pending get requests by scanning the wait queue from the
head in arrival order — the served requests are a prefix of the queue, their
amounts deducted in turn, and the scan stops at the first request whose
amount exceeds the remaining level — so for a container at level 0 with
queued gets of 5 then 3 replenished by exactly 5, the 5-unit request is
served and the 3-unit request stays queued behind it. -/
theorem C4_fifo_head_of_line :
    (∀ (lvl : ℤ) (q : List (ℕ × ℤ)),
      ∃ pre, q = pre ++ (drainQueue lvl q).2.1 ∧
        (drainQueue lvl q).2.2 = pre.map Prod.fst ∧
        (drainQueue lvl q).1 = lvl - (pre.map Prod.snd).sum ∧
        ∀ p a tl, (drainQueue lvl q).2.1 = (p, a) :: tl →
          (drainQueue lvl q).1 < a) ∧
    (⟨100, 0, [(1, 5), (2, 3)]⟩ : LevelContainer).put 5 =
      Except.ok (⟨100, 0, [(2, 3)]⟩, [1]) :=
  ⟨drainQueue_spec, by rfl⟩

/-- Witness for C4: the scan decomposition at level 5 over the queue of
requests for 5 then 3 units. -/
theorem C4_fifo_head_of_line_witness :
    ∃ pre, [(1, 5), (2, 3)] = pre ++ (drainQueue 5 [(1, 5), (2, 3)]).2.1 ∧
      (drainQueue 5 [(1, 5), (2, 3)]).2.2 = pre.map Prod.fst ∧
      (drainQueue 5 [(1, 5), (2, 3)]).1 = 5 - (pre.map Prod.snd).sum ∧
      ∀ p a tl, (drainQueue 5 [(1, 5), (2, 3)]).2.1 = (p, a) :: tl →
        (drainQueue 5 [(1, 5), (2, 3)]).1 < a :=
  C4_fifo_head_of_line.1 5 [(1, 5), (2, 3)]

/-- C5 counterexample: a delivery truck arriving at a container of capacity
100 at level 0 with one queued get request of 5 units computes amount 100 and
performs its put, and the level immediately after the put is 95, not the
capacity: the put itself hands 5 units to the queued getter, so the claim
that the level always equals capacity right after the truck's put is false. -/
theorem C5_restock_counterexample :
    deliveryTruckRestock ⟨100, 0, [(1, 5)]⟩ =
        Except.ok (⟨100, 95, []⟩, [1]) ∧
      (⟨100, 95, []⟩ : LevelContainer).level ≠
        (⟨100, 95, []⟩ : LevelContainer).capacity :=
  ⟨by rfl, by decide⟩

/-- C5 amended: the truck's put amount is capacity − level, and when no get
request is pending in the wait queue at put time (the level being below
capacity, as it always is then), the level immediately after the put is the
capacity exactly; with pending requests the put fills to capacity and then
serves queued getters from the head, leaving capacity minus the served
amounts. -/
theorem C5_restock_fills_to_capacity (c : LevelContainer)
    (hq : c.get_wait_queue = []) (hlt : c.level < c.capacity) :
    deliveryTruckRestock c =
      Except.ok ({ c with level := c.capacity, get_wait_queue := [] }, []) := by
  unfold deliveryTruckRestock LevelContainer.put
  rw [if_neg (show ¬(c.capacity - c.level ≤ 0) by omega), hq]
  have h1 : c.level + (c.capacity - c.level) = c.capacity := by ring
  simp [drainQueue, h1]

/-- Witness for C5: a truck restocking a container at level 40 with empty
wait queue fills it to exactly 100. -/
theorem C5_restock_fills_to_capacity_witness :
    deliveryTruckRestock ⟨100, 40, []⟩ = Except.ok (⟨100, 100, []⟩, []) :=
  C5_restock_fills_to_capacity ⟨100, 40, []⟩ rfl (by decide)

/-- C6: get validation and behaviour: a non-positive or over-capacity amount
fails with the invalid-request error; an in-range amount covered by the level
deducts immediately and returns; an in-range amount exceeding the level
appends the caller to the get wait queue and suspends it, the level
unchanged. -/
theorem C6_get_validation (c : LevelContainer) (pid : ℕ) (amount : ℤ) :
    ((amount ≤ 0 ∨ c.capacity < amount) →
      c.get pid amount = Except.error ContainerError.invalidRequest) ∧
    (0 < amount → amount ≤ c.capacity → amount ≤ c.level →
      c.get pid amount =
        Except.ok (GetOutcome.immediate, { c with level := c.level - amount })) ∧
    (0 < amount → amount ≤ c.capacity → c.level < amount →
      c.get pid amount = Except.ok (GetOutcome.suspended,
        { c with get_wait_queue := c.get_wait_queue ++ [(pid, amount)] })) := by
  refine ⟨fun h => ?_, fun h1 h2 h3 => ?_, fun h1 h2 h3 => ?_⟩
  · unfold LevelContainer.get
    rw [if_pos h]
  · unfold LevelContainer.get
    rw [if_neg (by omega), if_pos h3]
  · unfold LevelContainer.get
    rw [if_neg (by omega), if_neg (by omega)]

/-- Witness for C6: on a container of capacity 100 at level 50, a get of 101
is rejected, a get of 20 deducts immediately, and a get of 60 suspends the
caller in the wait queue. -/
theorem C6_get_validation_witness :
    (⟨100, 50, []⟩ : LevelContainer).get 3 101 =
        Except.error ContainerError.invalidRequest ∧
      (⟨100, 50, []⟩ : LevelContainer).get 3 20 =
        Except.ok (GetOutcome.immediate, ⟨100, 30, []⟩) ∧
      (⟨100, 50, []⟩ : LevelContainer).get 3 60 =
        Except.ok (GetOutcome.suspended, ⟨100, 50, [(3, 60)]⟩) :=
  ⟨(C6_get_validation ⟨100, 50, []⟩ 3 101).1 (by decide),
    (C6_get_validation ⟨100, 50, []⟩ 3 20).2.1 (by decide) (by decide) (by decide),
    (C6_get_validation ⟨100, 50, []⟩ 3 60).2.2 (by decide) (by decide) (by decide)⟩

/-- C7: for any horizon T and any process behaviour with bounded fan-out
whose zero-delay scheduling strictly decreases a bounded rank — delay-0
events (spawn at the current time, wake-ups of waiters at the current
virtual time) are allowed, the rank condition only expressing that each
cascade of same-instant resumptions is finite, as in the scenario where a
spawned process runs to its first positive timeout or suspension and each
wake-up consumes a wait-queue entry — an iteration budget computed from the
initial queue suffices: run(until=T) resumes no event due strictly after T,
is halted after that finite budget (the run returns control in finitely many
steps), and every event still pending at the halt — a still-suspended
process — is simply left in the queue with due time strictly past the
horizon, no error arising. -/
theorem C7_horizon_termination (h : Handler) (L R T fuel : ℕ)
    (s : SchedState) (rho : ℕ → ℕ → ℕ)
    (hlen : ∀ pid t, (h pid t).length ≤ L)
    (hrank : ∀ p u, rho p u ≤ R)
    (hz : ∀ pid t, ∀ dp ∈ h pid t,
      1 ≤ dp.1 ∨ (dp.1 = 0 ∧ rho dp.2 t < rho pid t))
    (hfuel : schedMeasure L R T rho s.queue ≤ fuel) :
    (∀ e ∈ (runSched h T fuel s).trace, e ∈ s.trace ∨ e.due ≤ T) ∧
    schedStep h T (runSched h T fuel s) = none ∧
    (∀ e ∈ (runSched h T fuel s).queue, T < e.due) := by
  have hhalt := runSched_halts hlen hrank hz fuel s hfuel
  exact ⟨runSched_trace_le fuel s, hhalt, schedStep_none_queue hhalt⟩

/-- Witness for C7: process 7, resumed at its due time 2, spawns a zero-delay
event for process 3 at that same instant (rank 1 dropping to rank 0); the run
with horizon 5 resumes both and halts. -/
theorem C7_horizon_termination_witness :
    (∀ e ∈ (runSched (fun p _ => if p = 7 then [(0, 3)] else []) 5 512
        ⟨0, 1, [⟨2, 0, 7⟩], []⟩).trace,
        e ∈ (⟨0, 1, [⟨2, 0, 7⟩], []⟩ : SchedState).trace ∨ e.due ≤ 5) ∧
      schedStep (fun p _ => if p = 7 then [(0, 3)] else []) 5
        (runSched (fun p _ => if p = 7 then [(0, 3)] else []) 5 512
          ⟨0, 1, [⟨2, 0, 7⟩], []⟩) = none ∧
      (∀ e ∈ (runSched (fun p _ => if p = 7 then [(0, 3)] else []) 5 512
          ⟨0, 1, [⟨2, 0, 7⟩], []⟩).queue, 5 < e.due) :=
  C7_horizon_termination (fun p _ => if p = 7 then [(0, 3)] else []) 1 1 5 512
    ⟨0, 1, [⟨2, 0, 7⟩], []⟩ (fun p _ => if p = 7 then 1 else 0)
    (fun pid t => by by_cases hp : pid = 7 <;> simp [hp])
    (fun p u => by by_cases hp : p = 7 <;> simp [hp])
    (fun pid t dp hdp => by
      by_cases hp : pid = 7
      · simp only [hp, if_pos] at hdp
        rcases List.mem_singleton.1 hdp with rfl
        exact Or.inr ⟨rfl, by simp [hp]⟩
      · simp [hp] at hdp)
    (by decide)

/-- C8: determinism: from a well-formed scheduler state, two executions of
the same number of run-loop iterations under the same process behaviour (the
same random-number sequence and configuration) end in identical states, and
in particular produce identical resumption traces in identical order; the
stable (due, ordinal) FIFO tie-break makes the minimal event unique. -/
theorem C8_deterministic_replay (h : Handler) (T n : ℕ)
    (s s1 s2 : SchedState) (hwf : SchedWF s)
    (h1 : RSteps h T n s s1) (h2 : RSteps h T n s s2) :
    s1 = s2 ∧ s1.trace = s2.trace := by
  have heq := RSteps_det n s s1 s2 hwf h1 h2
  exact ⟨heq, by rw [heq]⟩

/-- Witness for C8: two one-step executions over a queue holding two events
with equal due time 5 and ordinals 0 and 1 both resume the ordinal-0 event. -/
theorem C8_deterministic_replay_witness :
    (⟨5, 2, [⟨5, 1, 2⟩], [⟨5, 0, 1⟩]⟩ : SchedState) =
        ⟨5, 2, [⟨5, 1, 2⟩], [⟨5, 0, 1⟩]⟩ ∧
      (⟨5, 2, [⟨5, 1, 2⟩], [⟨5, 0, 1⟩]⟩ : SchedState).trace =
        (⟨5, 2, [⟨5, 1, 2⟩], [⟨5, 0, 1⟩]⟩ : SchedState).trace :=
  C8_deterministic_replay (fun _ _ => []) 10 1
    ⟨0, 2, [⟨5, 0, 1⟩, ⟨5, 1, 2⟩], []⟩
    ⟨5, 2, [⟨5, 1, 2⟩], [⟨5, 0, 1⟩]⟩ ⟨5, 2, [⟨5, 1, 2⟩], [⟨5, 0, 1⟩]⟩
    ⟨by decide, by decide⟩
    (RSteps.tail (RSteps.refl _) ⟨⟨5, 0, 1⟩, by decide, by decide, by decide, rfl⟩)
    (RSteps.tail (RSteps.refl _) ⟨⟨5, 0, 1⟩, by decide, by decide, by decide, rfl⟩)

/-- C9: in every reachable clinic state where the control loop is awaiting
the truck it dispatched, the container's level is strictly below capacity —
the truck was dispatched below the threshold and only gets have run on the
container since — so the truck's computed amount capacity − level is strictly
positive and its put succeeds: the put's positive-amount error branch is
unreachable. -/
theorem C9_truck_put_amount_positive (s : ClinicState)
    (hs : ClinicReachable s) (hpc : s.pc = CtrlPC.awaitingTruck) :
    0 < s.container.capacity - s.container.level ∧
    ∃ c' served, deliveryTruckRestock s.container = Except.ok (c', served) := by
  obtain ⟨-, -, hawait, -⟩ := clinicInv_of_reachable hs
  have hlt := hawait hpc
  exact ⟨by omega, put_ok_of_pos (by omega)⟩

/-- Witness for C9: a state reached by a customer get of 91 units (level 9)
followed by the control loop's dispatch. -/
theorem C9_truck_put_amount_positive_witness :
    0 < (⟨⟨100, 9, []⟩, CtrlPC.awaitingTruck, 1⟩ : ClinicState).container.capacity -
        (⟨⟨100, 9, []⟩, CtrlPC.awaitingTruck, 1⟩ : ClinicState).container.level ∧
      ∃ c' served, deliveryTruckRestock
          (⟨⟨100, 9, []⟩, CtrlPC.awaitingTruck, 1⟩ : ClinicState).container =
        Except.ok (c', served) :=
  C9_truck_put_amount_positive ⟨⟨100, 9, []⟩, CtrlPC.awaitingTruck, 1⟩
    (ClinicReachable.step
      (ClinicReachable.step ClinicReachable.init
        (ClinicStep.customerGet clinicInit 1 91 GetOutcome.immediate
          ⟨100, 9, []⟩ (by rfl)))
      (ClinicStep.checkDispatch ⟨⟨100, 9, []⟩, CtrlPC.checking, 0⟩ rfl (by rfl)))
    rfl

/-- C10: at any reachable instant at most one delivery truck targeting a
clinic's container exists: its single control process synchronously awaits
the truck it spawned before performing any further check or dispatch. -/
theorem C10_at_most_one_truck (s : ClinicState) (hs : ClinicReachable s) :
    s.trucks ≤ 1 := by
  obtain ⟨-, -, -, htr⟩ := clinicInv_of_reachable hs
  rw [htr]
  split <;> omega

/-- Witness for C10: the initial clinic state. -/
theorem C10_at_most_one_truck_witness : clinicInit.trucks ≤ 1 :=
  C10_at_most_one_truck clinicInit ClinicReachable.init


end MEDSim
